import Mathlib

/-!
# Verification of the tulip audio equalizer (`audio/tulip/audio_eq.c`)

A shallow embedding of the equalizer engine and proofs about it.

Modelling conventions
* A finite `float` is the rational number it denotes.  `round32` rounds a
  rational to single precision (nearest, ties to even); it is applied to the
  products and quotients whose result is converted to an integer (the
  fallback product, the output scaling).  The band formula is exact in single
  precision for `j ≤ 512` (`bandStartRounded_eq`, `bandRangeRounded_eq`,
  `bandStart_binary32`), the normalisation `s / 32768` of a 16-bit sample is
  exact, and the equalizer products are kept exact.  Infinities and NaN are
  not values of the model: an operation that overflows has no result.
* A float-to-`short` conversion has a result only when the truncated value
  is a `short`; the processing functions report whether every conversion
  and every access to the allocated block was defined.
* C arrays are functions from the index to the stored value
  (`Nat → ℚ`, `Nat → Int`, `Nat → ℚ × ℚ`), a store is `Function.update`.
* `uint32_t` loop counters are natural numbers.
* Results of library calls the program cannot control (`pthread_create`,
  `fopen`, `sscanf`, the FFTW transforms, the content of freshly allocated
  memory) are explicit parameters.
-/

namespace AudioEq

/-! ## Data model -/

/-- A `float` array. -/
abbrev Buf := Nat → ℚ

/-- The interleaved `signed short` PCM buffer `buf16`. -/
abbrev Pcm := Nat → Int

/-- An `fftwf_complex` array: bin `k` holds `(re, im)`. -/
abbrev Frame := Nat → ℚ × ℚ

/-- Value of `base_buffer_size` (never modified by the program). -/
def base_buffer_size : Nat := 2048

/-- The static variables of `audio_eq.c` that the processing path and the
control path use. -/
structure EqState where
  master_gain : ℚ
  lpf_gain : ℚ
  bandcount : Nat
  bands : Nat → ℚ
  temporals : Nat → ℚ
  temporalscount : Nat
  ready : Int
  base_buffer_left : Buf
  base_buffer_right : Buf
  last_buffer_left : Buf
  last_buffer_right : Buf

/-- The forward (`fftwf_plan_dft_r2c_1d`) and inverse
(`fftwf_plan_dft_c2r_1d`) transforms of size 2048, supplied primitives:
`r2c` reads 2048 reals and produces 1025 bins, `c2r` reads 1025 bins and
produces 2048 reals. -/
structure Transform where
  r2c : (Fin 2048 → ℚ) → (Fin 1025 → ℚ × ℚ)
  c2r : (Fin 1025 → ℚ × ℚ) → (Fin 2048 → ℚ)

/-- The `min` macro: `((a) < (b)) ? (a) : (b)`. -/
def cmin (a b : ℚ) : ℚ := if a < b then a else b

/-- The `max` macro: `((a) > (b)) ? (a) : (b)`. -/
def cmax (a b : ℚ) : ℚ := if a > b then a else b

/-- The gain expression `max( 0.0f, min( 2.0f, bands[j] ) )`. -/
def clampGain (b : ℚ) : ℚ := cmax 0 (cmin 2 b)

/-- Conversion `(signed short)x` of a float: truncation toward zero; there is
no result when the truncated value is outside `-32768 .. 32767` (undefined
in C). -/
def toShort (x : ℚ) : Option Int :=
  if -32768 ≤ Int.tdiv x.num (x.den : Int) ∧ Int.tdiv x.num (x.den : Int) ≤ 32767 then
    some (Int.tdiv x.num (x.den : Int))
  else none

/-- Rounding of a rational to the nearest integer, ties to the even one. -/
def roundHalfEven (y : ℚ) : Int :=
  if y - (⌊y⌋ : ℚ) < 1 / 2 then ⌊y⌋
  else if 1 / 2 < y - (⌊y⌋ : ℚ) then ⌊y⌋ + 1
  else if ⌊y⌋ % 2 = 0 then ⌊y⌋ else ⌊y⌋ + 1

/-- Exponent of the unit in the last place of a single-precision number of
magnitude `a`: the least `q' ≥ q` (within `fuel` steps) with `a / 2^q' < 2^24`.
Started at `q = -149`, the exponent of the smallest subnormal. -/
def ulpExp : Nat → Int → ℚ → Int
  | 0, q, _ => q
  | fuel + 1, q, a => if a / (2 : ℚ) ^ q < 16777216 then q else ulpExp fuel (q + 1) a

/-- Rounding of the exact result of a float operation to single precision
(24-bit significand, least exponent -149, nearest with ties to even); no result
when the rounded magnitude reaches `2^128` (overflow to infinity). -/
def round32 (x : ℚ) : Option ℚ :=
  if abs ((roundHalfEven (x / (2 : ℚ) ^ ulpExp 254 (-149) (abs x)) : ℚ)
        * (2 : ℚ) ^ ulpExp 254 (-149) (abs x)) < (2 : ℚ) ^ (128 : Nat) then
    some ((roundHalfEven (x / (2 : ℚ) ^ ulpExp 254 (-149) (abs x)) : ℚ)
      * (2 : ℚ) ^ ulpExp 254 (-149) (abs x))
  else none

/-- A store `buf16[idx] = (signed short)x` of a float `x` (absent when the float
operation overflowed): the buffer with the flag telling whether every
conversion so far was defined.  An undefined conversion stores nothing and
clears the flag. -/
def storeShort (b : Pcm × Bool) (idx : Nat) (x : Option ℚ) : Pcm × Bool :=
  match x.bind toShort with
  | some v => (Function.update b.1 idx v, b.2)
  | none => (b.1, false)

/-- Normalisation of a sample: `( (float)s ) / 32768.0f`. -/
def normalize (s : Int) : ℚ := (s : ℚ) / 32768

/-- `memcpy( dst, &src[off], cnt * sizeof(float) )`. -/
def memcpy (dst src : Buf) (off cnt : Nat) : Buf :=
  fun k => if k < cnt then src (off + k) else dst k

/-! ## Band mapper (the `start` / `range` expressions of the equalizer loop) -/

/-- `start = (uint32_t)( 0.75f * ((float)j / 32.0f + 1.0f) * (float)j / 2.0f )`. -/
def bandStart (j : Nat) : Nat :=
  Nat.floor ((3 / 4 : ℚ) * ((j : ℚ) / 32 + 1) * (j : ℚ) / 2)

/-- `range = (uint32_t)( 0.75f * ((float)(j + 1) / 32.0f + 1.0f) * ((float)j + 1.0f) / 2.0f )`. -/
def bandRange (j : Nat) : Nat :=
  Nat.floor ((3 / 4 : ℚ) * (((j + 1 : Nat) : ℚ) / 32 + 1) * ((j : ℚ) + 1) / 2)

/-- The expression `start` evaluated with a rounding `rnd` applied after every
float operation: `(float)j / 32.0f`, `+ 1.0f`, `0.75f * _`, `* (float)j`, `/ 2.0f`. -/
def bandStartRounded (rnd : ℚ → ℚ) (j : Nat) : Nat :=
  Nat.floor (rnd (rnd (rnd ((3 / 4 : ℚ) * rnd (rnd ((j : ℚ) / 32) + 1)) * (j : ℚ)) / 2))

/-- The expression `range` evaluated with a rounding `rnd` applied after every
float operation: `(float)(j + 1) / 32.0f`, `+ 1.0f`, `0.75f * _`, `(float)j + 1.0f`,
the product, `/ 2.0f`. -/
def bandRangeRounded (rnd : ℚ → ℚ) (j : Nat) : Nat :=
  Nat.floor
    (rnd (rnd (rnd ((3 / 4 : ℚ) * rnd (rnd (((j + 1 : Nat) : ℚ) / 32) + 1)) * rnd ((j : ℚ) + 1)) / 2))

/-! ## Equalizer loop -/

/-- Body of the innermost loop: `temporal[k][0] *= g; temporal[k][1] *= g`
with `g = max( 0.0f, min( 2.0f, bands[j] ) )`. -/
def scaleBin (bands : Nat → ℚ) (j : Nat) (t : Frame) (k : Nat) : Frame :=
  let t1 := Function.update t k ((t k).1 * clampGain (bands j), (t k).2)
  Function.update t1 k ((t1 k).1, (t1 k).2 * clampGain (bands j))

/-- The loop `for ( k = start; k < range && k < base_buffer_size; k++ )` of band `j`. -/
def bandLoop (bands : Nat → ℚ) (j : Nat) (t : Frame) : Frame :=
  (List.range' (bandStart j) (min (bandRange j) base_buffer_size - bandStart j)).foldl
    (scaleBin bands j) t

/-- The loop `for ( j = 0; j < bandcount / 4; j++ )`. -/
def equalize (bands : Nat → ℚ) (bandcount : Nat) (t : Frame) : Frame :=
  (List.range (bandcount / 4)).foldl (fun t j => bandLoop bands j t) t

/-! ## Processing path (`audio_eq_process`) -/

/-- `audio_eq_init`: calls `pthread_create` (its return value is not
inspected), logs, and returns 1. -/
def audio_eq_init (_pthread_create_ret : Int) : Int := 1

/-- Body of the inner fallback loop: `buf16[j*nb_channels+i] *= master_gain;`
(the `short` is converted to float, the product is rounded to single precision
and converted back to `short`). -/
def fallbackStep (master_gain : ℚ) (nb_channels i : Nat) (st : Pcm × Bool) (j : Nat) :
    Pcm × Bool :=
  storeShort st (j * nb_channels + i)
    (round32 ((st.1 (j * nb_channels + i) : ℚ) * master_gain))

/-- The fallback loops
`for ( i < nb_channels ) for ( j < samples_count ) buf16[j*nb_channels+i] *= master_gain;`:
the buffer they leave and whether every conversion was defined. -/
def fallbackLoop (master_gain : ℚ) (buf16 : Pcm) (samples_count nb_channels : Nat) :
    Pcm × Bool :=
  (List.range nb_channels).foldl
    (fun st i => (List.range samples_count).foldl (fallbackStep master_gain nb_channels i) st)
    (buf16, true)

/-- Body of the loop that appends the new samples:
`base_buffer_left[1024 + j] = ( (float)buf16[j*nb_channels+0] ) / 32768.0f;` and the
same for the right channel with `+1`. -/
def appendSample (buf16 : Pcm) (nb_channels : Nat) (st : EqState) (j : Nat) : EqState :=
  let st1 := { st with
    base_buffer_left :=
      Function.update st.base_buffer_left (1024 + j) (normalize (buf16 (j * nb_channels + 0))) }
  { st1 with
    base_buffer_right :=
      Function.update st1.base_buffer_right (1024 + j) (normalize (buf16 (j * nb_channels + 1))) }

/-- Lines 106-113: the two `memcpy` from the history, the loop appending the
new samples, and the two `memcpy` saving the window as the new history. -/
def fillWindows (s : EqState) (buf16 : Pcm) (samples_count nb_channels : Nat) : EqState :=
  let s1 := { s with
    base_buffer_left := memcpy s.base_buffer_left s.last_buffer_left samples_count 1024 }
  let s2 := { s1 with
    base_buffer_right := memcpy s1.base_buffer_right s1.last_buffer_right samples_count 1024 }
  let s3 := (List.range samples_count).foldl (appendSample buf16 nb_channels) s2
  let s4 := { s3 with last_buffer_left := memcpy s3.last_buffer_left s3.base_buffer_left 0 2048 }
  { s4 with last_buffer_right := memcpy s4.last_buffer_right s4.base_buffer_right 0 2048 }

/-- The pointer table `base_buffers[2] = { base_buffer_left, base_buffer_right }`;
an index of 2 or more is outside the table. -/
def base_buffers (s : EqState) (i : Nat) : Option Buf :=
  match i with
  | 0 => some s.base_buffer_left
  | 1 => some s.base_buffer_right
  | _ => none

/-- Store through `base_buffers[i]` for `i < 2`. -/
def setBaseBuffer (s : EqState) (i : Nat) (b : Buf) : EqState :=
  match i with
  | 0 => { s with base_buffer_left := b }
  | _ => { s with base_buffer_right := b }

/-- Body of the snapshot loop:
`temporals[j*2+0] = temporal[j][0]; temporals[j*2+1] = temporal[j][1];`. -/
def snapshotBin (temporal : Frame) (st : EqState) (j : Nat) : EqState :=
  let st1 := { st with temporals := Function.update st.temporals (j * 2 + 0) (temporal j).1 }
  { st1 with temporals := Function.update st1.temporals (j * 2 + 1) (temporal j).2 }

/-- The `if ( i == 0 )` block: copy `samples_count` bins and set `temporalscount`. -/
def snapshot (s : EqState) (temporal : Frame) (samples_count : Nat) : EqState :=
  { (List.range samples_count).foldl (snapshotBin temporal) s with
    temporalscount := samples_count }

/-- Forward transform of the window `base[0..2047]` into `temporal[0..1024]`;
the other entries of `temporal` keep their content. -/
def forward (T : Transform) (base : Buf) (temporal : Frame) : Frame :=
  fun k => if h : k < 1025 then T.r2c (fun x => base x) ⟨k, h⟩ else temporal k

/-- Inverse transform of `temporal[0..1024]` into `base[0..2047]`. -/
def inverse (T : Transform) (temporal : Frame) (base : Buf) : Buf :=
  fun k => if h : k < 2048 then T.c2r (fun x => temporal x) ⟨k, h⟩ else base k

/-- The bins `temporal[k]` the equalizer loop reads and writes, in order. -/
def equalizeBins (bandcount : Nat) : List Nat :=
  (List.range (bandcount / 4)).flatMap
    (fun j => List.range' (bandStart j) (min (bandRange j) base_buffer_size - bandStart j))

/-- Whether a block of `cap` bins holds everything one pass of the channel loop
puts into `temporal`: the 1025 bins the forward transform writes and every bin
the equalizer loop touches. -/
def blockHolds (cap bandcount : Nat) : Bool :=
  decide (1025 ≤ cap) && (equalizeBins bandcount).all (fun k => decide (k < cap))

/-- Body of the channel loop `for ( i = 0; i < nb_channels; i++ )` on the state,
the block `temporal` of `cap` bins and the flag telling whether every access
so far stayed inside the block: forward transform, equalizer loop, snapshot for
channel 0, inverse transform.  The result is `none` when `base_buffers[i]` is
read outside the table. -/
def processChannel (T : Transform) (samples_count cap : Nat) (st : EqState × Frame × Bool)
    (i : Nat) : Option (EqState × Frame × Bool) :=
  match base_buffers st.1 i with
  | none => none
  | some base =>
    let temporal1 := forward T base st.2.1
    let temporal2 := equalize st.1.bands st.1.bandcount temporal1
    let s1 := if i = 0 then snapshot st.1 temporal2 samples_count else st.1
    some (setBaseBuffer s1 i (inverse T temporal2 base), temporal2,
      st.2.2 && blockHolds cap st.1.bandcount)

/-- The expression `master_gain * 32768.0f / (float)samples_count`; no finite
result when an operation overflows or `samples_count` is 0. -/
def outFactor (master_gain : ℚ) (samples_count : Nat) : Option ℚ :=
  if samples_count = 0 then none
  else
    (round32 (master_gain * 32768)).bind
      (fun a => (round32 (samples_count : ℚ)).bind (fun n => round32 (a / n)))

/-- Body of the output loop:
`buf16[j*nb_channels+0] = (signed short)( base_buffer_left[512 + j] * factor );` and the
same for the right channel with `+1`. -/
def writeSample (s : EqState) (factor : Option ℚ) (nb_channels : Nat) (b : Pcm × Bool)
    (j : Nat) : Pcm × Bool :=
  storeShort
    (storeShort b (j * nb_channels + 0)
      (factor.bind (fun f => round32 (s.base_buffer_left (512 + j) * f))))
    (j * nb_channels + 1)
    (factor.bind (fun f => round32 (s.base_buffer_right (512 + j) * f)))

/-- Lines 148-152: `factor = master_gain * 32768.0f / (float)samples_count` and the
output loop: the buffer it leaves and whether every conversion was defined. -/
def writeOutput (s : EqState) (buf16 : Pcm) (samples_count nb_channels : Nat) : Pcm × Bool :=
  (List.range samples_count).foldl
    (writeSample s (outFactor s.master_gain samples_count) nb_channels) (buf16, true)

/-- Which branch of `if ( 0 || ready <= 0 )` a call ran. -/
inductive Path
  | fallback
  | spectral
  deriving DecidableEq, Repr

/-- Outcome of one call of `audio_eq_process`: the static variables, the PCM
buffer, whether `audio_eq_init` was called, the branch taken, and whether the
call was defined (every access to the `fftwf_malloc` block inside the block,
every float-to-`short` conversion in range).  When `defined` is false the
buffers carry no information about the program. -/
structure ProcResult where
  state : EqState
  buf : Pcm
  initCalled : Bool
  path : Path
  defined : Bool

/-- The function `audio_eq_process`.  `pthread_create_ret` is what
`pthread_create` returns if `audio_eq_init` runs, `heap` the content of the
memory `fftwf_malloc( sizeof(fftwf_complex) * samples_count * 8 )` returns, a
block of `samples_count * 8` bins.  The result is `none` when the channel loop
indexes `base_buffers` outside its two entries; its field `defined` is false
when an access leaves the block or a float-to-`short` conversion is out of
range. -/
def audio_eq_process (T : Transform) (pthread_create_ret : Int) (heap : Frame) (s : EqState)
    (buf16 : Pcm) (samples_count _sample_size nb_channels : Nat) : Option ProcResult :=
  let initCalled := decide (s.ready = 0)
  let s0 := if s.ready = 0 then { s with ready := audio_eq_init pthread_create_ret } else s
  if s0.ready ≤ 0 then
    some ⟨s0, (fallbackLoop s0.master_gain buf16 samples_count nb_channels).1, initCalled,
      Path.fallback, (fallbackLoop s0.master_gain buf16 samples_count nb_channels).2⟩
  else
    let s1 := fillWindows s0 buf16 samples_count nb_channels
    match (List.range nb_channels).foldlM (processChannel T samples_count (samples_count * 8))
        (s1, heap, true) with
    | none => none
    | some (s2, _, ok) =>
      some ⟨s2, (writeOutput s2 buf16 samples_count nb_channels).1, initCalled, Path.spectral,
        ok && (writeOutput s2 buf16 samples_count nb_channels).2⟩

/-! ## Persistence and control channel -/

/-- Results of the `sscanf` calls of the program on a line: `none` when the
conversion does not match (the target variable is then left unmodified). -/
structure Scanf where
  int : String → Option Int
  float : String → Option ℚ
  master : String → Option ℚ
  lpf : String → Option ℚ
  band : String → Option Int × Option ℚ

/-- Conversion `(int)x` of a `uint32_t`. -/
def toInt32 (x : Nat) : Int :=
  if x % 4294967296 < 2147483648 then (x % 4294967296 : Nat) else (x % 4294967296 : Nat) - 4294967296

/-- Store of an `int` into the `uint32_t` variable `bandcount` (what
`sscanf( buf, "%d", &bandcount )` does with the scanned number). -/
def toUInt32 (v : Int) : Nat := (v % 4294967296).toNat

/-- Calls made on the `FILE* fp` of `audio_eq_save`; the handle is `none`
for the null pointer a failed `fopen` returns. -/
inductive FileOp
  | logError
  | printCount (fp : Option Nat) (bandcount : Nat)
  | printGain (fp : Option Nat) (gain : ℚ)
  | close (fp : Option Nat)
  deriving DecidableEq

/-- The function `audio_eq_save`; `fp` is the result of
`fopen( "/data/audio/eq.dat", "wb" )`.  Returns the calls made, in order:
`ALOGE` when `!fp`, then `fprintf( fp, "%d\n", bandcount )`, one
`fprintf( fp, "%f\n", bands[i] )` for each `i < bandcount`, then `fclose( fp )`. -/
def audio_eq_save (fp : Option Nat) (s : EqState) : List FileOp :=
  (if fp.isNone then [FileOp.logError] else []) ++
    (FileOp.printCount fp s.bandcount ::
      ((List.range s.bandcount).map (fun i => FileOp.printGain fp (s.bands i)) ++
        [FileOp.close fp]))

/-- Body of the loop `while ( fgets( buf, sizeof(buf), fp ) ) sscanf( buf, "%f", &bands[i++] );`
on the pair (state, `i`). -/
def loadLine (sc : Scanf) (p : EqState × Nat) (line : String) : EqState × Nat :=
  (match sc.float line with
    | some v => { p.1 with bands := Function.update p.1.bands p.2 v }
    | none => p.1,
   p.2 + 1)

/-- The function `audio_eq_load`; `file` is `none` when `fopen` fails, else
the lines `fgets` returns.  With no first line `buf` stays empty and the
`%d` scan stores nothing. -/
def audio_eq_load (sc : Scanf) (file : Option (List String)) (s : EqState) : EqState :=
  match file with
  | none => s
  | some [] => s
  | some (first :: rest) =>
    let s1 := match sc.int first with
      | some v => { s with bandcount := toUInt32 v }
      | none => s
    (rest.foldl (loadLine sc) (s1, 0)).1

/-- Test `!strncmp( buf, pre, strlen(pre) )`: the line starts with `pre`. -/
def startsWith (buf pre : String) : Bool := pre.data.isPrefixOf buf.data

/-- Payload written to `fifo_out`. -/
inductive Response
  | bandcount (n : Nat)
  | bands (n : Nat) (values : List ℚ)
  | temporal (n : Nat) (values : List ℚ)
  deriving DecidableEq

/-- Outcome of handling one control line: the static variables, the writes to
`fifo_out`, and the calls of `audio_eq_save` (each with the file calls it made). -/
structure CtlResult where
  state : EqState
  responses : List Response
  saves : List (List FileOp)

/-- Number of entries of the array `bands` (`static float bands[2048]`). -/
def bandsCapacity : Nat := 2048

/-- One iteration of the `while ( fgets( buf, sizeof(buf), file_in ) )` loop
of `audio_eq_control` on the line `buf`; `fp` is what `fopen` returns should
`audio_eq_save` run.  The result is `none` when the guard of the `band[` command
accepts an index outside the 2048 entries of `bands` (the store is then out of
bounds).  Responses are modelled by their payload. -/
def audio_eq_control_line (sc : Scanf) (fp : Option Nat) (s : EqState) (buf : String) :
    Option CtlResult :=
  if startsWith buf "bandcount" then
    some ⟨s, [Response.bandcount s.bandcount], []⟩
  else if startsWith buf "master_gain" then
    some ⟨match sc.master buf with
      | some v => { s with master_gain := v }
      | none => s, [], []⟩
  else if startsWith buf "lpf_gain" then
    some ⟨match sc.lpf buf with
      | some v => { s with lpf_gain := v }
      | none => s, [], []⟩
  else if startsWith buf "band[" then
    let id : Int := (sc.band buf).1.getD (-1)
    let value : ℚ := (sc.band buf).2.getD (-1)
    if id ≥ 0 ∧ id < toInt32 s.bandcount ∧ value ≥ 0 then
      if id.toNat < bandsCapacity then
        let s1 := { s with bands := Function.update s.bands id.toNat value }
        some ⟨s1, [], [audio_eq_save fp s1]⟩
      else none
    else
      some ⟨s, [], []⟩
  else if startsWith buf "bands" then
    some ⟨s, [Response.bands s.bandcount ((List.range s.bandcount).map s.bands)], []⟩
  else if startsWith buf "temporal" then
    some ⟨s,
      [Response.temporal s.temporalscount ((List.range s.temporalscount).map s.temporals)], []⟩
  else
    some ⟨s, [], []⟩

/-! ## Sample inputs used to evaluate the definitions -/

/-- A linear transform pair whose round trip multiplies the first 1025 window
entries by the window size, as the unnormalized transforms do: the forward
map puts window entry `k` into the real part of bin `k`, the inverse map
returns 2048 times the real part of bin `k`. -/
def sampleTransform : Transform :=
  { r2c := fun w k => (w ⟨k.1, Nat.lt_trans k.2 (by decide)⟩, 0),
    c2r := fun f k => if h : k.1 < 1025 then 2048 * (f ⟨k.1, h⟩).1 else 0 }

/-- A state with every array constant: gains 1, buffers 0. -/
def sampleState (ready : Int) : EqState :=
  { master_gain := 1 / 4, lpf_gain := 2, bandcount := 1024, bands := fun _ => 1,
    temporals := fun _ => 0, temporalscount := 0, ready := ready,
    base_buffer_left := fun _ => 0, base_buffer_right := fun _ => 0,
    last_buffer_left := fun _ => 0, last_buffer_right := fun _ => 0 }

/-- Scan results for the lines used in the examples: `"1"`, `"4096"` and `"-1"`
as `%d`, `"0.5"` as `%f`, and `"band[0]=1.5"` and `"band[5000]=1"` as
`band[%d]=%f`. -/
def sampleScanf : Scanf :=
  { int := fun l =>
      if l = "1" then some 1 else if l = "4096" then some 4096
      else if l = "-1" then some (-1) else none,
    float := fun l => if l = "0.5" then some (1 / 2) else none,
    master := fun _ => none,
    lpf := fun _ => none,
    band := fun l =>
      if l = "band[0]=1.5" then (some 0, some (3 / 2))
      else if l = "band[5000]=1" then (some 5000, some 1) else (none, none) }

/-! ## Band mapper: closed form and monotonicity -/

/-- The float expression of `start` is the integer quotient `3 j (j + 32) / 256`. -/
theorem bandStart_eq (j : Nat) : bandStart j = 3 * j * (j + 32) / 256 := by
  unfold bandStart
  have h : ((3 / 4 : ℚ) * ((j : ℚ) / 32 + 1) * (j : ℚ) / 2)
      = ((3 * j * (j + 32) : Nat) : ℚ) / ((256 : Nat) : ℚ) := by
    push_cast; ring
  rw [h, Nat.floor_div_eq_div]

/-- The expression `range` of band `j` is the expression `start` of band `j + 1`. -/
theorem bandRange_eq_succ (j : Nat) : bandRange j = bandStart (j + 1) := by
  unfold bandRange bandStart
  congr 1
  push_cast; ring

/-- The expression `start` is monotone in the band index. -/
theorem bandStart_mono {i j : Nat} (h : i ≤ j) : bandStart i ≤ bandStart j := by
  rw [bandStart_eq, bandStart_eq]
  apply Nat.div_le_div_right
  have h1 : 3 * i ≤ 3 * j := Nat.mul_le_mul_left 3 h
  have h2 : i + 32 ≤ j + 32 := Nat.add_le_add_right h 32
  exact Nat.mul_le_mul h1 h2

/-- Single-precision evaluation agrees with the exact one: a rounding that fixes
every `m / 256` with `m < 2^24` (all such values are `binary32` numbers) does not
change the value of `start` for `j ≤ 512`. -/
theorem bandStartRounded_eq (rnd : ℚ → ℚ)
    (hr : ∀ m : Nat, m < 16777216 → rnd ((m : ℚ) / 256) = (m : ℚ) / 256) (j : Nat)
    (hj : j ≤ 512) : bandStartRounded rnd j = bandStart j := by
  unfold bandStartRounded bandStart
  have e1 : (j : ℚ) / 32 = ((8 * j : Nat) : ℚ) / 256 := by push_cast; ring
  have e2 : ((8 * j : Nat) : ℚ) / 256 + 1 = ((8 * j + 256 : Nat) : ℚ) / 256 := by
    push_cast; ring
  have e3 : (3 / 4 : ℚ) * (((8 * j + 256 : Nat) : ℚ) / 256) = ((6 * j + 192 : Nat) : ℚ) / 256 := by
    push_cast; ring
  have e4 : ((6 * j + 192 : Nat) : ℚ) / 256 * (j : ℚ) = (((6 * j + 192) * j : Nat) : ℚ) / 256 := by
    push_cast; ring
  have e5 : (((6 * j + 192) * j : Nat) : ℚ) / 256 / 2 = (((3 * j + 96) * j : Nat) : ℚ) / 256 := by
    push_cast; ring
  have b4 : (6 * j + 192) * j < 16777216 :=
    Nat.lt_of_le_of_lt (Nat.mul_le_mul (by omega : 6 * j + 192 ≤ 3264) hj) (by decide)
  have b5 : (3 * j + 96) * j < 16777216 :=
    Nat.lt_of_le_of_lt (Nat.mul_le_mul (by omega : 3 * j + 96 ≤ 1632) hj) (by decide)
  rw [e1, hr _ (by omega), e2, hr _ (by omega), e3, hr _ (by omega), e4, hr _ b4, e5, hr _ b5]

/-- Single-precision evaluation of `range` agrees with the exact one for `j < 512`. -/
theorem bandRangeRounded_eq (rnd : ℚ → ℚ)
    (hr : ∀ m : Nat, m < 16777216 → rnd ((m : ℚ) / 256) = (m : ℚ) / 256) (j : Nat)
    (hj : j < 512) : bandRangeRounded rnd j = bandRange j := by
  unfold bandRangeRounded bandRange
  have e1 : ((j + 1 : Nat) : ℚ) / 32 = ((8 * (j + 1) : Nat) : ℚ) / 256 := by push_cast; ring
  have e2 : ((8 * (j + 1) : Nat) : ℚ) / 256 + 1 = ((8 * (j + 1) + 256 : Nat) : ℚ) / 256 := by
    push_cast; ring
  have e3 : (3 / 4 : ℚ) * (((8 * (j + 1) + 256 : Nat) : ℚ) / 256)
      = ((6 * (j + 1) + 192 : Nat) : ℚ) / 256 := by
    push_cast; ring
  have e0 : (j : ℚ) + 1 = ((256 * (j + 1) : Nat) : ℚ) / 256 := by push_cast; ring
  have e4 : ((6 * (j + 1) + 192 : Nat) : ℚ) / 256 * (((256 * (j + 1) : Nat) : ℚ) / 256)
      = (((6 * (j + 1) + 192) * (j + 1) : Nat) : ℚ) / 256 := by
    push_cast; ring
  have e5 : (((6 * (j + 1) + 192) * (j + 1) : Nat) : ℚ) / 256 / 2
      = (((3 * (j + 1) + 96) * (j + 1) : Nat) : ℚ) / 256 := by
    push_cast; ring
  have hj1 : j + 1 ≤ 512 := hj
  have b4 : (6 * (j + 1) + 192) * (j + 1) < 16777216 :=
    Nat.lt_of_le_of_lt (Nat.mul_le_mul (by omega : 6 * (j + 1) + 192 ≤ 3264) hj1) (by decide)
  have b5 : (3 * (j + 1) + 96) * (j + 1) < 16777216 :=
    Nat.lt_of_le_of_lt (Nat.mul_le_mul (by omega : 3 * (j + 1) + 96 ≤ 1632) hj1) (by decide)
  rw [e1, hr _ (by omega), e2, hr _ (by omega), e3, hr _ (by omega), e0, hr _ (by omega), e4,
    hr _ b4, e5, hr _ b5]

/-- The first band starts at bin 0. -/
theorem bandStart_zero : bandStart 0 = 0 := by
  rw [bandStart_eq]

/-- From band 22 on every band holds at least one bin. -/
theorem bandStart_lt_succ {j : Nat} (h : 22 ≤ j) : bandStart j < bandStart (j + 1) := by
  rw [bandStart_eq, bandStart_eq]
  by_cases h27 : 27 ≤ j
  · have key : 3 * j * (j + 32) + 256 ≤ 3 * (j + 1) * (j + 1 + 32) := by nlinarith
    generalize 3 * j * (j + 32) = a at key
    generalize 3 * (j + 1) * (j + 1 + 32) = b at key
    omega
  · have h5 : j < 27 := Nat.lt_of_not_le h27
    interval_cases j <;> decide

/-- C3, as stated, fails: with `bandcount = 4` the only band `j = 0` has
`start(0) = end(0) = 0`, so `start(j) < end(j)` does not hold for every valid band. -/
theorem band_range_strict_counterexample :
    ¬ (∀ bandcount j : Nat, bandcount ≤ 2048 → j < bandcount / 4 →
        bandStart j < bandRange j ∧ bandRange j ≤ bandStart (j + 1)) := by
  intro h
  have h0 := (h 4 0 (by decide) (by decide)).1
  rw [bandRange_eq_succ, bandStart_eq, bandStart_eq] at h0
  exact absurd h0 (by decide)

/-- Below band 22 the bands holding no bin are 0, 1, 3, 5, 7, 9, 12, 16 and 21. -/
theorem small_band_nonempty_iff :
    ∀ j, j < 22 →
      (3 * j * (j + 32) / 256 < 3 * (j + 1) * (j + 1 + 32) / 256
        ↔ j ∉ [0, 1, 3, 5, 7, 9, 12, 16, 21]) := by
  decide

/-- C3 amended: for every valid band `j` (`j < bandcount/4`, `bandcount ≤ 2048`),
`start(j) ≤ end(j) = start(j+1)`, both `start` and `end` are non-decreasing in the
band index, and `start(j) < end(j)` holds exactly when `j` is none of
0, 1, 3, 5, 7, 9, 12, 16, 21 (in particular whenever `j ≥ 22`). -/
theorem band_range_monotone (bandcount j : Nat) (_hb : bandcount ≤ 2048)
    (_hj : j < bandcount / 4) :
    bandStart j ≤ bandRange j ∧ bandRange j = bandStart (j + 1) ∧
      (∀ i, i ≤ j → bandStart i ≤ bandStart j ∧ bandRange i ≤ bandRange j) ∧
      (bandStart j < bandRange j ↔ j ∉ [0, 1, 3, 5, 7, 9, 12, 16, 21]) := by
  refine ⟨?_, bandRange_eq_succ j, ?_, ?_⟩
  · rw [bandRange_eq_succ]; exact bandStart_mono (Nat.le_succ j)
  · intro i hi
    refine ⟨bandStart_mono hi, ?_⟩
    rw [bandRange_eq_succ, bandRange_eq_succ]
    exact bandStart_mono (Nat.succ_le_succ hi)
  · rw [bandRange_eq_succ]
    by_cases h22 : 22 ≤ j
    · have hnot : j ∉ [0, 1, 3, 5, 7, 9, 12, 16, 21] := by
        simp only [List.mem_cons, List.mem_singleton, List.not_mem_nil, or_false]
        omega
      exact ⟨fun _ => hnot, fun _ => bandStart_lt_succ h22⟩
    · rw [bandStart_eq, bandStart_eq]
      exact small_band_nonempty_iff j (Nat.lt_of_not_le h22)

/-- Witness of `band_range_monotone` at `bandcount = 1024`, `j = 30`. -/
theorem band_range_monotone_witness :
    (1024 ≤ 2048 ∧ 30 < 1024 / 4) ∧
    bandStart 30 ≤ bandRange 30 ∧ bandRange 30 = bandStart (30 + 1) ∧
      (∀ i, i ≤ 30 → bandStart i ≤ bandStart 30 ∧ bandRange i ≤ bandRange 30) ∧
      (bandStart 30 < bandRange 30 ↔ 30 ∉ [0, 1, 3, 5, 7, 9, 12, 16, 21]) :=
  ⟨by decide, band_range_monotone 1024 30 (by decide) (by decide)⟩

/-! ## Equalizer loop: clamping and bin coverage -/

/-- The `min` macro agrees with the order-theoretic minimum. -/
theorem cmin_eq_min (a b : ℚ) : cmin a b = min a b := by
  unfold cmin
  split_ifs with h
  · exact (min_eq_left (le_of_lt h)).symm
  · exact (min_eq_right (not_lt.mp h)).symm

/-- The `max` macro agrees with the order-theoretic maximum. -/
theorem cmax_eq_max (a b : ℚ) : cmax a b = max a b := by
  unfold cmax
  split_ifs with h
  · exact (max_eq_left (le_of_lt h)).symm
  · exact (max_eq_right (not_lt.mp h)).symm

/-- The gain expression is the clamp to `[0, 2]`. -/
theorem clampGain_eq (b : ℚ) : clampGain b = max 0 (min 2 b) := by
  unfold clampGain
  rw [cmax_eq_max, cmin_eq_min]

/-- The two stores of the loop body amount to one store of the scaled pair. -/
theorem scaleBin_eq (bands : Nat → ℚ) (j : Nat) (t : Frame) (k : Nat) :
    scaleBin bands j t k
      = Function.update t k ((t k).1 * clampGain (bands j), (t k).2 * clampGain (bands j)) := by
  unfold scaleBin
  simp

/-- A loop over `k = a, ..., a + n - 1` that replaces entry `k` by `f` of its
current value changes exactly these entries, each once. -/
theorem foldl_range'_update {α : Type} (f : α → α) (n : Nat) :
    ∀ (a : Nat) (t : Nat → α) (k : Nat),
      (List.range' a n).foldl (fun t k => Function.update t k (f (t k))) t k
        = if a ≤ k ∧ k < a + n then f (t k) else t k := by
  induction n with
  | zero =>
    intro a t k
    have h0 : ¬ (a ≤ k ∧ k < a + 0) := by omega
    rw [if_neg h0]
    rfl
  | succ n ih =>
    intro a t k
    rw [List.range'_succ, List.foldl_cons, ih]
    by_cases hk : k = a
    · subst hk
      have h1 : ¬ (k + 1 ≤ k ∧ k < k + 1 + n) := by omega
      have h2 : k ≤ k ∧ k < k + (n + 1) := by omega
      simp [h1, h2]
    · rw [Function.update_noteq hk]
      by_cases h : a ≤ k ∧ k < a + (n + 1)
      · have h1 : a + 1 ≤ k ∧ k < a + 1 + n := by omega
        simp [h, h1]
      · have h1 : ¬ (a + 1 ≤ k ∧ k < a + 1 + n) := by omega
        simp [h, h1]

/-- Effect of the loop of band `j` on bin `k`. -/
theorem bandLoop_apply (bands : Nat → ℚ) (j : Nat) (t : Frame) (k : Nat) :
    bandLoop bands j t k
      = if bandStart j ≤ k ∧ k < bandRange j ∧ k < 2048 then
          ((t k).1 * clampGain (bands j), (t k).2 * clampGain (bands j))
        else t k := by
  unfold bandLoop base_buffer_size
  have hfun : scaleBin bands j = fun t k => Function.update t k
      ((fun z : ℚ × ℚ => (z.1 * clampGain (bands j), z.2 * clampGain (bands j))) (t k)) := by
    funext t k
    exact scaleBin_eq bands j t k
  rw [hfun]
  refine (foldl_range'_update
    (fun z : ℚ × ℚ => (z.1 * clampGain (bands j), z.2 * clampGain (bands j))) _ _ t k).trans ?_
  by_cases h : bandStart j ≤ k ∧ k < bandRange j ∧ k < 2048
  · have h1 : bandStart j ≤ k ∧ k < bandStart j + (min (bandRange j) 2048 - bandStart j) := by
      omega
    simp [h, h1]
  · have h1 : ¬ (bandStart j ≤ k ∧ k < bandStart j + (min (bandRange j) 2048 - bandStart j)) := by
      omega
    simp [h, h1]

/-- Invariant of the equalizer loop after the bands `0, ..., m - 1`: bins at or
beyond `start(m)` or beyond the window are untouched, and a bin inside the
range of a band `j < m` has been scaled once by the clamped gain of `j`. -/
theorem equalize_loop_spec (bands : Nat → ℚ) (t : Frame) (m : Nat) :
    (∀ k, bandStart m ≤ k ∨ 2048 ≤ k →
        (List.range m).foldl (fun t j => bandLoop bands j t) t k = t k) ∧
    (∀ j, j < m → ∀ k, bandStart j ≤ k → k < bandStart (j + 1) → k < 2048 →
        (List.range m).foldl (fun t j => bandLoop bands j t) t k
          = ((t k).1 * clampGain (bands j), (t k).2 * clampGain (bands j))) := by
  induction m with
  | zero =>
    refine ⟨fun k _ => by simp, fun j hj => absurd hj (Nat.not_lt_zero j)⟩
  | succ m ih =>
    obtain ⟨ih1, ih2⟩ := ih
    have hmono : bandStart m ≤ bandStart (m + 1) := bandStart_mono (Nat.le_succ m)
    constructor
    · intro k hk
      rw [List.range_succ, List.foldl_append, List.foldl_cons, List.foldl_nil, bandLoop_apply,
        bandRange_eq_succ]
      have hno : ¬ (bandStart m ≤ k ∧ k < bandStart (m + 1) ∧ k < 2048) := by omega
      rw [if_neg hno]
      exact ih1 k (by omega)
    · intro j hj k hk1 hk2 hk3
      rw [List.range_succ, List.foldl_append, List.foldl_cons, List.foldl_nil, bandLoop_apply,
        bandRange_eq_succ]
      by_cases hjm : j = m
      · subst hjm
        rw [if_pos ⟨hk1, hk2, hk3⟩, ih1 k (Or.inl hk1)]
      · have hlt : j < m := by omega
        have hle : bandStart (j + 1) ≤ bandStart m := bandStart_mono hlt
        have hno : ¬ (bandStart m ≤ k ∧ k < bandStart (m + 1) ∧ k < 2048) := by omega
        rw [if_neg hno]
        exact ih2 j hlt k hk1 hk2 hk3

/-- Every bin below `start(m)` lies in the range of some band `j < m`. -/
theorem exists_band_of_lt (m k : Nat) (h : k < bandStart m) :
    ∃ j, j < m ∧ bandStart j ≤ k ∧ k < bandStart (j + 1) := by
  induction m with
  | zero => rw [bandStart_zero] at h; exact absurd h (Nat.not_lt_zero k)
  | succ m ih =>
    by_cases hk : k < bandStart m
    · obtain ⟨j, hj, h1, h2⟩ := ih hk
      exact ⟨j, Nat.lt_succ_of_lt hj, h1, h2⟩
    · exact ⟨m, Nat.lt_succ_self m, Nat.le_of_not_lt hk, h⟩

/-- Two bands whose ranges hold the same bin are the same band. -/
theorem band_unique {i j k : Nat} (hi1 : bandStart i ≤ k) (hi2 : k < bandStart (i + 1))
    (hj1 : bandStart j ≤ k) (hj2 : k < bandStart (j + 1)) : i = j := by
  rcases Nat.lt_trichotomy i j with h | h | h
  · have h3 : bandStart (i + 1) ≤ bandStart j := bandStart_mono h
    omega
  · exact h
  · have h3 : bandStart (j + 1) ≤ bandStart i := bandStart_mono h
    omega

/-- C4: the bin ranges are contiguous (`end(j) = start(j+1)`); for
`4 ≤ bandcount ≤ 2048` the equalizer loop multiplies every bin
`k < min(end(bandcount/4 - 1), 2048)` once, real and imaginary part, by
`max(0, min(2, bands[j]))` for the unique band `j` whose range holds `k`, and
leaves every bin at or beyond `end(bandcount/4 - 1)` (and every bin beyond the
window) unchanged. -/
theorem equalize_bin_coverage (bands : Nat → ℚ) (bandcount : Nat) (t : Frame) (k : Nat)
    (hlo : 4 ≤ bandcount) (_hhi : bandcount ≤ 2048) :
    (∀ j, bandRange j = bandStart (j + 1)) ∧
    (k < min (bandRange (bandcount / 4 - 1)) 2048 →
      ∃ j, j < bandcount / 4 ∧ bandStart j ≤ k ∧ k < bandRange j ∧
        (∀ i, i < bandcount / 4 → bandStart i ≤ k → k < bandRange i → i = j) ∧
        equalize bands bandcount t k
          = ((t k).1 * max 0 (min 2 (bands j)), (t k).2 * max 0 (min 2 (bands j)))) ∧
    (bandRange (bandcount / 4 - 1) ≤ k ∨ 2048 ≤ k → equalize bands bandcount t k = t k) := by
  have hm : 1 ≤ bandcount / 4 := by omega
  have hend : bandRange (bandcount / 4 - 1) = bandStart (bandcount / 4) := by
    rw [bandRange_eq_succ, Nat.sub_add_cancel hm]
  obtain ⟨h1, h2⟩ := equalize_loop_spec bands t (bandcount / 4)
  refine ⟨bandRange_eq_succ, ?_, ?_⟩
  · intro hk
    rw [hend] at hk
    obtain ⟨j, hj, hj1, hj2⟩ := exists_band_of_lt (bandcount / 4) k (by omega)
    refine ⟨j, hj, hj1, by rw [bandRange_eq_succ]; exact hj2, ?_, ?_⟩
    · intro i _ hi1 hi2
      rw [bandRange_eq_succ] at hi2
      exact band_unique hi1 hi2 hj1 hj2
    · rw [← clampGain_eq]
      exact h2 j hj k hj1 hj2 (by omega)
  · intro hk
    rw [hend] at hk
    exact h1 k hk

/-- Witness of `equalize_bin_coverage` at `bandcount = 1024` with the gains
`bands[j] = j/16` on the frame whose every bin is `(1, 3)`: bin 3 lies in band 8
(`start(8) = 3`, `end(8) = 4`), whose gain is 1/2, and becomes `(1/2, 3/2)`; bin 2
lies in band 6, whose gain is 3/8; bin 900 is beyond `end(255) = 864` and keeps
`(1, 3)`. -/
theorem equalize_bin_coverage_witness :
    (4 ≤ 1024 ∧ 1024 ≤ 2048 ∧ 3 < min (bandRange (1024 / 4 - 1)) 2048 ∧
      bandRange (1024 / 4 - 1) ≤ 900) ∧
    equalize (fun j => (j : ℚ) / 16) 1024 (fun _ => (1, 3)) 3 = (1 / 2, 3 / 2) ∧
    equalize (fun j => (j : ℚ) / 16) 1024 (fun _ => (1, 3)) 2 = (3 / 8, 9 / 8) ∧
    equalize (fun j => (j : ℚ) / 16) 1024 (fun _ => (1, 3)) 900 = (1, 3) := by
  have hend : bandRange (1024 / 4 - 1) = 864 := by
    rw [bandRange_eq_succ, bandStart_eq]
  have hprem3 : 3 < min (bandRange (1024 / 4 - 1)) 2048 := by rw [hend]; decide
  have hprem2 : 2 < min (bandRange (1024 / 4 - 1)) 2048 := by rw [hend]; decide
  have hbeyond : bandRange (1024 / 4 - 1) ≤ 900 := by rw [hend]; decide
  refine ⟨⟨by decide, by decide, hprem3, hbeyond⟩, ?_, ?_, ?_⟩
  · obtain ⟨j, hj, _, _, huniq, hval⟩ :=
      (equalize_bin_coverage (fun j => (j : ℚ) / 16) 1024 (fun _ => (1, 3)) 3
        (by decide) (by decide)).2.1 hprem3
    have h8 : 8 = j := huniq 8 (by decide) (by rw [bandStart_eq])
      (by rw [bandRange_eq_succ, bandStart_eq]; decide)
    subst h8
    rw [hval]
    norm_num
  · obtain ⟨j, hj, _, _, huniq, hval⟩ :=
      (equalize_bin_coverage (fun j => (j : ℚ) / 16) 1024 (fun _ => (1, 3)) 2
        (by decide) (by decide)).2.1 hprem2
    have h6 : 6 = j := huniq 6 (by decide) (by rw [bandStart_eq])
      (by rw [bandRange_eq_succ, bandStart_eq]; decide)
    subst h6
    rw [hval]
    norm_num
  · exact (equalize_bin_coverage (fun j => (j : ℚ) / 16) 1024 (fun _ => (1, 3)) 900
      (by decide) (by decide)).2.2 (Or.inl hbeyond)

/-! ## Window construction (lines 106-113) -/

/-- State after the loop appending `n` new samples: entries `1024 .. 1024+n-1`
of both working buffers hold the normalized samples, every other entry and the
two histories are as before. -/
theorem foldl_appendSample (buf16 : Pcm) (nb : Nat) (s : EqState) (n : Nat) :
    (∀ k, ((List.range n).foldl (appendSample buf16 nb) s).base_buffer_left k
        = if 1024 ≤ k ∧ k < 1024 + n then normalize (buf16 ((k - 1024) * nb + 0))
          else s.base_buffer_left k) ∧
    (∀ k, ((List.range n).foldl (appendSample buf16 nb) s).base_buffer_right k
        = if 1024 ≤ k ∧ k < 1024 + n then normalize (buf16 ((k - 1024) * nb + 1))
          else s.base_buffer_right k) ∧
    ((List.range n).foldl (appendSample buf16 nb) s).last_buffer_left = s.last_buffer_left ∧
    ((List.range n).foldl (appendSample buf16 nb) s).last_buffer_right = s.last_buffer_right := by
  induction n with
  | zero =>
    refine ⟨fun k => ?_, fun k => ?_, rfl, rfl⟩
    · have h0 : ¬ (1024 ≤ k ∧ k < 1024 + 0) := by omega
      rw [if_neg h0]; rfl
    · have h0 : ¬ (1024 ≤ k ∧ k < 1024 + 0) := by omega
      rw [if_neg h0]; rfl
  | succ n ih =>
    obtain ⟨ihl, ihr, ihll, ihlr⟩ := ih
    rw [List.range_succ, List.foldl_append, List.foldl_cons, List.foldl_nil]
    refine ⟨fun k => ?_, fun k => ?_, ?_, ?_⟩
    · show Function.update _ (1024 + n) _ k = _
      by_cases hk : k = 1024 + n
      · subst hk
        have h1 : 1024 ≤ 1024 + n ∧ 1024 + n < 1024 + (n + 1) := by omega
        rw [Function.update_same, if_pos h1, Nat.add_sub_cancel_left]
      · rw [Function.update_noteq hk, ihl k]
        by_cases h : 1024 ≤ k ∧ k < 1024 + n
        · have h1 : 1024 ≤ k ∧ k < 1024 + (n + 1) := by omega
          rw [if_pos h, if_pos h1]
        · have h1 : ¬ (1024 ≤ k ∧ k < 1024 + (n + 1)) := by omega
          rw [if_neg h, if_neg h1]
    · show Function.update _ (1024 + n) _ k = _
      by_cases hk : k = 1024 + n
      · subst hk
        have h1 : 1024 ≤ 1024 + n ∧ 1024 + n < 1024 + (n + 1) := by omega
        rw [Function.update_same, if_pos h1, Nat.add_sub_cancel_left]
      · rw [Function.update_noteq hk, ihr k]
        by_cases h : 1024 ≤ k ∧ k < 1024 + n
        · have h1 : 1024 ≤ k ∧ k < 1024 + (n + 1) := by omega
          rw [if_pos h, if_pos h1]
        · have h1 : ¬ (1024 ≤ k ∧ k < 1024 + (n + 1)) := by omega
          rw [if_neg h, if_neg h1]
    · exact ihll
    · exact ihlr

/-- Content of the left working buffer after lines 106-113. -/
theorem fillWindows_base_left (s : EqState) (buf16 : Pcm) (n nb k : Nat) :
    (fillWindows s buf16 n nb).base_buffer_left k
      = if 1024 ≤ k ∧ k < 1024 + n then normalize (buf16 ((k - 1024) * nb + 0))
        else if k < 1024 then s.last_buffer_left (n + k) else s.base_buffer_left k := by
  unfold fillWindows
  simp only []
  rw [(foldl_appendSample buf16 nb _ n).1 k]
  rfl

/-- Content of the right working buffer after lines 106-113. -/
theorem fillWindows_base_right (s : EqState) (buf16 : Pcm) (n nb k : Nat) :
    (fillWindows s buf16 n nb).base_buffer_right k
      = if 1024 ≤ k ∧ k < 1024 + n then normalize (buf16 ((k - 1024) * nb + 1))
        else if k < 1024 then s.last_buffer_right (n + k) else s.base_buffer_right k := by
  unfold fillWindows
  simp only []
  rw [(foldl_appendSample buf16 nb _ n).2.1 k]
  rfl

/-- The saved left history is the window: entries below 2048 are copied. -/
theorem fillWindows_last_left (s : EqState) (buf16 : Pcm) (n nb k : Nat) (hk : k < 2048) :
    (fillWindows s buf16 n nb).last_buffer_left k
      = (fillWindows s buf16 n nb).base_buffer_left k := by
  unfold fillWindows
  simp only [memcpy, if_pos hk, Nat.zero_add]

/-- The saved right history is the window: entries below 2048 are copied. -/
theorem fillWindows_last_right (s : EqState) (buf16 : Pcm) (n nb k : Nat) (hk : k < 2048) :
    (fillWindows s buf16 n nb).last_buffer_right k
      = (fillWindows s buf16 n nb).base_buffer_right k := by
  unfold fillWindows
  simp only [memcpy, if_pos hk, Nat.zero_add]

/-- C1, as stated, fails: with `samples_count = 1`, zero histories and working
buffers and the sample `16384`, position 2047 of the left window keeps the
working buffer's old value 0 instead of the new sample `16384/32768`. -/
theorem window_tail_counterexample :
    ¬ (∀ (s : EqState) (buf16 : Pcm) (n k : Nat), 1 ≤ n → n ≤ 1024 → k < 2048 →
        (fillWindows s buf16 n 2).base_buffer_left k
          = if k < 2048 - n then s.last_buffer_left (k + n)
            else normalize (buf16 ((k - (2048 - n)) * 2 + 0))) := by
  intro h
  have h1 := h (sampleState 1) (fun _ => 16384) 1 2047 (by decide) (by decide) (by decide)
  rw [fillWindows_base_left] at h1
  norm_num [sampleState, normalize] at h1

/-- C1 amended: for `1 ≤ n ≤ 1024` and both channels `c`, the window handed to the
forward transform holds the previous history shifted left by `n` in positions
`0 .. 1023` (position `i` holds the previous position `n + i`) and the `n` new
samples `buf16[j*nb+c]/32768` in positions `1024 .. 1024+n-1`; the window is saved
as the new history; and for `n = 1024` the window is exactly the previous history
shifted left by `n` with the new samples in its tail `2048-n .. 2047`. -/
theorem window_construction (s : EqState) (buf16 : Pcm) (n nb : Nat)
    (_h1 : 1 ≤ n) (_h2 : n ≤ 1024) :
    (∀ i, i < 1024 →
      (fillWindows s buf16 n nb).base_buffer_left i = s.last_buffer_left (n + i) ∧
      (fillWindows s buf16 n nb).base_buffer_right i = s.last_buffer_right (n + i)) ∧
    (∀ j, j < n →
      (fillWindows s buf16 n nb).base_buffer_left (1024 + j) = normalize (buf16 (j * nb + 0)) ∧
      (fillWindows s buf16 n nb).base_buffer_right (1024 + j) = normalize (buf16 (j * nb + 1))) ∧
    (∀ k, k < 2048 →
      (fillWindows s buf16 n nb).last_buffer_left k
        = (fillWindows s buf16 n nb).base_buffer_left k ∧
      (fillWindows s buf16 n nb).last_buffer_right k
        = (fillWindows s buf16 n nb).base_buffer_right k) ∧
    (n = 1024 → ∀ k, k < 2048 →
      (fillWindows s buf16 n nb).base_buffer_left k
        = (if k < 2048 - n then s.last_buffer_left (k + n)
           else normalize (buf16 ((k - (2048 - n)) * nb + 0))) ∧
      (fillWindows s buf16 n nb).base_buffer_right k
        = (if k < 2048 - n then s.last_buffer_right (k + n)
           else normalize (buf16 ((k - (2048 - n)) * nb + 1)))) := by
  refine ⟨?_, ?_, ?_, ?_⟩
  · intro i hi
    have h0 : ¬ (1024 ≤ i ∧ i < 1024 + n) := by omega
    rw [fillWindows_base_left, fillWindows_base_right, if_neg h0, if_neg h0, if_pos hi, if_pos hi]
    exact ⟨rfl, rfl⟩
  · intro j hj
    have h0 : 1024 ≤ 1024 + j ∧ 1024 + j < 1024 + n := by omega
    rw [fillWindows_base_left, fillWindows_base_right, if_pos h0, if_pos h0,
      Nat.add_sub_cancel_left]
    exact ⟨rfl, rfl⟩
  · intro k hk
    exact ⟨fillWindows_last_left s buf16 n nb k hk, fillWindows_last_right s buf16 n nb k hk⟩
  · intro hn k hk
    subst hn
    rw [fillWindows_base_left, fillWindows_base_right]
    by_cases hlt : k < 1024
    · have h0 : ¬ (1024 ≤ k ∧ k < 1024 + 1024) := by omega
      have h3 : k < 2048 - 1024 := by omega
      rw [if_neg h0, if_neg h0, if_pos hlt, if_pos hlt, if_pos h3, if_pos h3, Nat.add_comm]
      exact ⟨rfl, rfl⟩
    · have h0 : 1024 ≤ k ∧ k < 1024 + 1024 := by omega
      have h3 : ¬ (k < 2048 - 1024) := by omega
      rw [if_pos h0, if_pos h0, if_neg h3, if_neg h3]
      exact ⟨rfl, rfl⟩

/-- Witness of `window_construction` at `samples_count = 1024`, two channels, a
constant buffer. -/
theorem window_construction_witness :
    (1 ≤ 1024 ∧ 1024 ≤ 1024) ∧
    (∀ j, j < 1024 →
      (fillWindows (sampleState 1) (fun _ => 16384) 1024 2).base_buffer_left (1024 + j)
        = normalize ((fun _ => 16384 : Pcm) (j * 2 + 0)) ∧
      (fillWindows (sampleState 1) (fun _ => 16384) 1024 2).base_buffer_right (1024 + j)
        = normalize ((fun _ => 16384 : Pcm) (j * 2 + 1))) :=
  ⟨by decide,
    (window_construction (sampleState 1) (fun _ => 16384) 1024 2 (by decide) (by decide)).2.1⟩

/-! ## Single-precision rounding and conversion to `short` -/

/-- An integer rounds to itself. -/
theorem roundHalfEven_intCast (n : Int) : roundHalfEven (n : ℚ) = n := by
  unfold roundHalfEven
  rw [Int.floor_intCast]
  simp

/-- The exponent search stops at or before any exponent `q0` that already brings
the magnitude below `2^24`. -/
theorem ulpExp_bounds (a : ℚ) (q0 : Int) (h0 : a / (2 : ℚ) ^ q0 < 16777216) :
    ∀ (fuel : Nat) (q : Int), q ≤ q0 → q0 ≤ q + fuel →
      q ≤ ulpExp fuel q a ∧ ulpExp fuel q a ≤ q0 := by
  intro fuel
  induction fuel with
  | zero =>
    intro q h1 h2
    simp only [ulpExp]
    have h3 : q = q0 := by simp at h2; omega
    omega
  | succ f ih =>
    intro q h1 h2
    simp only [ulpExp]
    split_ifs with h
    · exact ⟨le_refl q, h1⟩
    · have hne : q ≠ q0 := by
        intro e; rw [e] at h; exact h h0
      have h3 : q + 1 ≤ q0 := by omega
      have h4 : q0 ≤ q + 1 + f := by push_cast at h2; omega
      obtain ⟨h5, h6⟩ := ih (q + 1) h3 h4
      exact ⟨by omega, h6⟩

/-- Every single-precision number `m * 2^q` (`|m| < 2^24`, `-149 ≤ q ≤ 104`) is a
fixed point of the rounding. -/
theorem round32_exact (m q : Int) (hm : |m| < 16777216) (hq1 : -149 ≤ q) (hq2 : q ≤ 104) :
    round32 ((m : ℚ) * (2 : ℚ) ^ q) = some ((m : ℚ) * (2 : ℚ) ^ q) := by
  have h2pos : ∀ z : Int, (0 : ℚ) < (2 : ℚ) ^ z := fun z => zpow_pos (by norm_num) z
  have habs : |(m : ℚ) * (2 : ℚ) ^ q| = (|m| : Int) * (2 : ℚ) ^ q := by
    rw [abs_mul, abs_of_pos (h2pos q)]; push_cast; rfl
  have hmq : ((|m| : Int) : ℚ) < 16777216 := by exact_mod_cast hm
  have h0 : |(m : ℚ) * (2 : ℚ) ^ q| / (2 : ℚ) ^ q < 16777216 := by
    rw [habs, mul_div_assoc, div_self (ne_of_gt (h2pos q)), mul_one]; exact hmq
  obtain ⟨hlo, hhi⟩ := ulpExp_bounds _ q h0 254 (-149) hq1 (by push_cast; omega)
  unfold round32
  generalize ulpExp 254 (-149) |(m : ℚ) * (2 : ℚ) ^ q| = e at hlo hhi
  have hscaled : (m : ℚ) * (2 : ℚ) ^ q / (2 : ℚ) ^ e = ((m * 2 ^ (q - e).toNat : Int) : ℚ) := by
    have hd : q = e + ((q - e).toNat : Int) := by
      rw [Int.toNat_of_nonneg (by omega)]; ring
    have hpow : (2 : ℚ) ^ q = (2 : ℚ) ^ e * (2 : ℚ) ^ (q - e).toNat := by
      conv_lhs => rw [hd]
      rw [zpow_add₀ (by norm_num), zpow_natCast]
    rw [hpow]
    push_cast
    field_simp
    ring
  have hback : ((m * 2 ^ (q - e).toNat : Int) : ℚ) * (2 : ℚ) ^ e = (m : ℚ) * (2 : ℚ) ^ q := by
    rw [← hscaled]
    field_simp
  have hlt : |(m : ℚ) * (2 : ℚ) ^ q| < (2 : ℚ) ^ (128 : Nat) := by
    rw [habs]
    have h1 : (2 : ℚ) ^ q ≤ (2 : ℚ) ^ (104 : Int) := zpow_le_zpow_right₀ (by norm_num) hq2
    have h3 : (0 : ℚ) ≤ ((|m| : Int) : ℚ) := by exact_mod_cast abs_nonneg m
    calc ((|m| : Int) : ℚ) * (2 : ℚ) ^ q ≤ ((|m| : Int) : ℚ) * (2 : ℚ) ^ (104 : Int) :=
          mul_le_mul_of_nonneg_left h1 h3
      _ < 16777216 * (2 : ℚ) ^ (104 : Int) :=
          mul_lt_mul_of_pos_right hmq (h2pos 104)
      _ = (2 : ℚ) ^ (128 : Nat) := by norm_num
  rw [hscaled, roundHalfEven_intCast, hback, if_pos hlt]

/-- An integer of magnitude below `2^24` is a single-precision number. -/
theorem round32_int (m : Int) (hm : |m| < 16777216) : round32 (m : ℚ) = some (m : ℚ) := by
  have h := round32_exact m 0 hm (by decide) (by decide)
  rw [zpow_zero, mul_one] at h
  exact h

/-- A multiple `m / 256` with `m < 2^24` is a single-precision number. -/
theorem round32_div256 (m : Nat) (hm : m < 16777216) :
    round32 ((m : ℚ) / 256) = some ((m : ℚ) / 256) := by
  have h := round32_exact (m : Int) (-8) (by rw [abs_of_nonneg (by omega)]; omega)
    (by decide) (by decide)
  have he : ((m : Int) : ℚ) * (2 : ℚ) ^ (-8 : Int) = (m : ℚ) / 256 := by
    rw [zpow_neg]; norm_num; ring
  rw [he] at h
  exact h

/-- The band formula evaluated in single precision, rounding after every
operation, is the exact one for `j ≤ 512`. -/
theorem bandStart_binary32 (j : Nat) (hj : j ≤ 512) :
    bandStartRounded (fun x => (round32 x).getD 0) j = bandStart j :=
  bandStartRounded_eq _ (fun m hm => by rw [round32_div256 m hm]; rfl) j hj

/-- The normalisation of a 16-bit sample is exact in single precision. -/
theorem normalize_binary32 (x : Int) (h1 : -32768 ≤ x) (h2 : x ≤ 32767) :
    round32 (normalize x) = some (normalize x) := by
  have h := round32_exact x (-15) (by rw [abs_lt]; omega) (by decide) (by decide)
  have he : (x : ℚ) * (2 : ℚ) ^ (-15 : Int) = normalize x := by
    unfold normalize
    rw [zpow_neg]; norm_num; ring
  rw [he] at h
  exact h

/-- A product outside the `short` range makes the block undefined: the sample
30000 with `master_gain = 4`. -/
theorem fallback_undefined_example : (fallbackLoop 4 (fun _ => 30000) 1 1).2 = false := by
  have e : round32 (((30000 : Int) : ℚ) * 4) = some ((120000 : Int) : ℚ) := by
    have h := round32_int 120000 (by decide)
    have he : ((120000 : Int) : ℚ) = ((30000 : Int) : ℚ) * 4 := by norm_num
    rw [← he]
    exact h
  have t : toShort ((120000 : Int) : ℚ) = none := by
    unfold toShort
    rw [Rat.num_intCast, Rat.den_intCast]
    simp only [Nat.cast_one, Int.tdiv_one]
    rw [if_neg (by decide)]
  have hr1 : List.range 1 = [0] := rfl
  unfold fallbackLoop
  rw [hr1, List.foldl_cons, List.foldl_nil, List.foldl_cons, List.foldl_nil]
  unfold fallbackStep storeShort
  show (match (round32 (((30000 : Int) : ℚ) * 4)).bind toShort with
    | some v => (Function.update (fun _ => 30000 : Pcm) (0 * 1 + 0) v, true)
    | none => ((fun _ => 30000 : Pcm), false)).2 = false
  rw [e, Option.some_bind, t]

/-! ## Spectral path -/

/-- A projection that every step of a loop preserves is preserved by the loop. -/
theorem foldl_preserve {σ ι α : Type} (step : σ → ι → σ) (proj : σ → α)
    (h : ∀ st j, proj (step st j) = proj st) (l : List ι) :
    ∀ s, proj (l.foldl step s) = proj s := by
  induction l with
  | nil => intro s; rfl
  | cons x xs ih => intro s; rw [List.foldl_cons, ih, h]

/-- Lines 106-113 leave the configuration and `ready` untouched. -/
theorem fillWindows_config (s : EqState) (buf16 : Pcm) (n nb : Nat) :
    (fillWindows s buf16 n nb).bands = s.bands ∧
    (fillWindows s buf16 n nb).bandcount = s.bandcount ∧
    (fillWindows s buf16 n nb).master_gain = s.master_gain ∧
    (fillWindows s buf16 n nb).ready = s.ready := by
  unfold fillWindows
  refine ⟨?_, ?_, ?_, ?_⟩
  · exact foldl_preserve (appendSample buf16 nb) EqState.bands (fun _ _ => rfl) _ _
  · exact foldl_preserve (appendSample buf16 nb) EqState.bandcount (fun _ _ => rfl) _ _
  · exact foldl_preserve (appendSample buf16 nb) EqState.master_gain (fun _ _ => rfl) _ _
  · exact foldl_preserve (appendSample buf16 nb) EqState.ready (fun _ _ => rfl) _ _

/-- The snapshot block only writes `temporals` and `temporalscount`. -/
theorem snapshot_fields (s : EqState) (t : Frame) (n : Nat) :
    (snapshot s t n).bands = s.bands ∧
    (snapshot s t n).bandcount = s.bandcount ∧
    (snapshot s t n).master_gain = s.master_gain ∧
    (snapshot s t n).ready = s.ready ∧
    (snapshot s t n).base_buffer_left = s.base_buffer_left ∧
    (snapshot s t n).base_buffer_right = s.base_buffer_right := by
  unfold snapshot
  refine ⟨?_, ?_, ?_, ?_, ?_, ?_⟩
  · exact foldl_preserve (snapshotBin t) EqState.bands (fun _ _ => rfl) _ _
  · exact foldl_preserve (snapshotBin t) EqState.bandcount (fun _ _ => rfl) _ _
  · exact foldl_preserve (snapshotBin t) EqState.master_gain (fun _ _ => rfl) _ _
  · exact foldl_preserve (snapshotBin t) EqState.ready (fun _ _ => rfl) _ _
  · exact foldl_preserve (snapshotBin t) EqState.base_buffer_left (fun _ _ => rfl) _ _
  · exact foldl_preserve (snapshotBin t) EqState.base_buffer_right (fun _ _ => rfl) _ _

/-- A block of fewer than 1025 bins does not hold the forward transform. -/
theorem blockHolds_small (cap bandcount : Nat) (h : cap < 1025) :
    blockHolds cap bandcount = false := by
  unfold blockHolds
  rw [Bool.and_eq_false_iff]
  left
  rw [decide_eq_false_iff_not]
  omega

/-- Result of `audio_eq_process` on the spectral path with two channels: each
working buffer is the inverse transform of the equalized forward transform of its
window, the PCM buffer is rewritten from them by the output loop, and the call is
defined when the block holds the bins and every output conversion is in range. -/
theorem audio_eq_process_spectral (T : Transform) (p : Int) (heap : Frame) (s : EqState)
    (buf16 : Pcm) (n sz : Nat) (hr : 0 < s.ready) :
    ∃ s2, audio_eq_process T p heap s buf16 n sz 2
        = some ⟨s2, (writeOutput s2 buf16 n 2).1, false, Path.spectral,
            blockHolds (n * 8) s.bandcount && (writeOutput s2 buf16 n 2).2⟩ ∧
      s2.ready = s.ready ∧ s2.master_gain = s.master_gain ∧
      s2.base_buffer_left
        = inverse T (equalize s.bands s.bandcount
            (forward T (fillWindows s buf16 n 2).base_buffer_left heap))
            (fillWindows s buf16 n 2).base_buffer_left ∧
      ∃ t, s2.base_buffer_right
        = inverse T (equalize s.bands s.bandcount
            (forward T (fillWindows s buf16 n 2).base_buffer_right t))
            (fillWindows s buf16 n 2).base_buffer_right := by
  have hne : s.ready ≠ 0 := by omega
  have hle : ¬ s.ready ≤ 0 := by omega
  have hrange : List.range 2 = [0, 1] := rfl
  have h10 : ¬ ((1 : Nat) = 0) := by decide
  obtain ⟨hb, hc, hg, hrd⟩ := fillWindows_config s buf16 n 2
  have key : ∃ s2 t2, (List.range 2).foldlM (processChannel T n (n * 8))
        (fillWindows s buf16 n 2, heap, true) = some (s2, t2, blockHolds (n * 8) s.bandcount) ∧
      s2.ready = s.ready ∧ s2.master_gain = s.master_gain ∧
      s2.base_buffer_left
        = inverse T (equalize s.bands s.bandcount
            (forward T (fillWindows s buf16 n 2).base_buffer_left heap))
            (fillWindows s buf16 n 2).base_buffer_left ∧
      ∃ t, s2.base_buffer_right
        = inverse T (equalize s.bands s.bandcount
            (forward T (fillWindows s buf16 n 2).base_buffer_right t))
            (fillWindows s buf16 n 2).base_buffer_right := by
    simp only [hrange, List.foldlM, processChannel, base_buffers, setBaseBuffer, if_true,
      if_neg h10, bind, Option.bind, pure, Bool.true_and]
    refine ⟨_, _, congrArg some (Prod.ext rfl (Prod.ext rfl ?_)), ?_, ?_, ?_, ?_⟩
    · show (blockHolds (n * 8) (fillWindows s buf16 n 2).bandcount
          && blockHolds (n * 8) (snapshot _ _ n).bandcount) = _
      rw [(snapshot_fields _ _ n).2.1, hc, Bool.and_self]
    · show (snapshot _ _ n).ready = s.ready
      rw [(snapshot_fields _ _ n).2.2.2.1, hrd]
    · show (snapshot _ _ n).master_gain = s.master_gain
      rw [(snapshot_fields _ _ n).2.2.1, hg]
    · show inverse T (equalize _ _ _) _ = _
      rw [hb, hc]
    · refine ⟨equalize (fillWindows s buf16 n 2).bands (fillWindows s buf16 n 2).bandcount
        (forward T (fillWindows s buf16 n 2).base_buffer_left heap), ?_⟩
      show inverse T (equalize (snapshot _ _ n).bands (snapshot _ _ n).bandcount
        (forward T (snapshot _ _ n).base_buffer_right _)) (snapshot _ _ n).base_buffer_right = _
      rw [(snapshot_fields _ _ n).1, (snapshot_fields _ _ n).2.1,
        (snapshot_fields _ _ n).2.2.2.2.2, hb, hc]
  obtain ⟨s2, t2, hfold, h1, h2, h3, h4⟩ := key
  refine ⟨s2, ?_, h1, h2, h3, h4⟩
  unfold audio_eq_process
  simp only [hne, if_false, hle, decide_False]
  rw [hfold]

/-- For fewer than 129 samples per channel the spectral path is undefined: the
block of `8 n` bins does not hold the 1025 bins the forward transform writes. -/
theorem spectral_undefined_small (T : Transform) (p : Int) (heap : Frame) (s : EqState)
    (buf16 : Pcm) (n sz : Nat) (hr : 0 < s.ready) (hn : n ≤ 128) :
    ∃ r, audio_eq_process T p heap s buf16 n sz 2 = some r ∧ r.defined = false := by
  obtain ⟨s2, hproc, _⟩ := audio_eq_process_spectral T p heap s buf16 n sz hr
  refine ⟨_, hproc, ?_⟩
  show (blockHolds (n * 8) s.bandcount && (writeOutput s2 buf16 n 2).2) = false
  rw [blockHolds_small _ _ (by omega)]
  rfl

/-! ## Control channel: the `band[` command -/

/-- A line that starts with `band[` starts with none of the three prefixes
tested before it. -/
theorem startsWith_band (buf : String) (h : startsWith buf "band[" = true) :
    startsWith buf "bandcount" = false ∧ startsWith buf "master_gain" = false ∧
      startsWith buf "lpf_gain" = false := by
  unfold startsWith at *
  rw [ List.isPrefixOf_iff_prefix] at h
  obtain ⟨t, ht⟩ := h
  rw [← ht]
  refine ⟨?_, ?_, ?_⟩ <;> simp [List.isPrefixOf]

/-- The cast `(int)bandcount` is the identity below `2^31`. -/
theorem toInt32_of_lt (x : Nat) (h : x < 2147483648) : toInt32 x = (x : Int) := by
  unfold toInt32
  have h1 : x % 4294967296 = x := Nat.mod_eq_of_lt (by omega)
  rw [h1, if_pos h]

/-- Handling of a `band[` line, by the guard of line 234, with `id` and `value`
the two scanned variables. -/
theorem audio_eq_control_band (sc : Scanf) (fp : Option Nat) (s : EqState) (buf : String)
    (h : startsWith buf "band[" = true) (id : Int) (value : ℚ)
    (hid : id = (sc.band buf).1.getD (-1)) (hv : value = (sc.band buf).2.getD (-1)) :
    audio_eq_control_line sc fp s buf
      = if id ≥ 0 ∧ id < toInt32 s.bandcount ∧ value ≥ 0 then
          (if id.toNat < bandsCapacity then
            some ⟨{ s with bands := Function.update s.bands id.toNat value }, [],
              [audio_eq_save fp { s with bands := Function.update s.bands id.toNat value }]⟩
          else none)
        else some ⟨s, [], []⟩ := by
  obtain ⟨h1, h2, h3⟩ := startsWith_band buf h
  subst hid hv
  unfold audio_eq_control_line
  simp only [h1, h2, h3, h, if_true]
  rfl

/-- C7, as stated, fails: with `bandcount = 4294967295` (a value the `uint32_t`
can hold, stored for instance by loading a file whose first line is `-1`) the line
`band[0]=1.5` scans to index 0 and value 3/2, `0 ≤ 0 < bandcount` and `3/2 ≥ 0`
hold, but `(int)bandcount = -1`, so nothing is stored and no save happens. -/
theorem control_band_counterexample :
    ¬ (∀ (sc : Scanf) (fp : Option Nat) (s : EqState) (buf : String),
        startsWith buf "band[" = true →
        (0 ≤ (sc.band buf).1.getD (-1) ∧ (sc.band buf).1.getD (-1) < (s.bandcount : Int) ∧
          0 ≤ (sc.band buf).2.getD (-1)) →
        ∃ r, audio_eq_control_line sc fp s buf = some r ∧ r.saves ≠ []) := by
  intro h
  obtain ⟨r, hr, hsave⟩ :=
    h sampleScanf none { sampleState 1 with bandcount := 4294967295 } "band[0]=1.5"
      (by decide) (by norm_num [sampleScanf])
  rw [audio_eq_control_band sampleScanf none _ "band[0]=1.5" (by decide) 0 (3 / 2)
    (by simp [sampleScanf]) (by simp [sampleScanf])] at hr
  have h2 : toInt32 4294967295 = -1 := by decide
  have h3 : ¬ ((0 : Int) ≥ 0 ∧ (0 : Int) < toInt32 4294967295 ∧ (3 / 2 : ℚ) ≥ 0) := by
    rw [h2]
    exact fun hh => absurd hh.2.1 (by decide)
  rw [if_neg h3] at hr
  cases hr
  exact hsave rfl

/-- For `2048 < bandcount < 2^31` the guard accepts indices outside the 2048
entries of `bands`: the store is then out of bounds and the line has no defined
result. -/
theorem control_band_out_of_bounds (sc : Scanf) (fp : Option Nat) (s : EqState) (buf : String)
    (h : startsWith buf "band[" = true) (hb : s.bandcount < 2147483648)
    (hid : 2048 ≤ (sc.band buf).1.getD (-1))
    (hlt : (sc.band buf).1.getD (-1) < (s.bandcount : Int))
    (hv : 0 ≤ (sc.band buf).2.getD (-1)) :
    audio_eq_control_line sc fp s buf = none := by
  rw [audio_eq_control_band sc fp s buf h _ _ rfl rfl, toInt32_of_lt _ hb]
  have hg : (sc.band buf).1.getD (-1) ≥ 0 ∧ (sc.band buf).1.getD (-1) < (s.bandcount : Int) ∧
      (sc.band buf).2.getD (-1) ≥ 0 := ⟨by omega, hlt, hv⟩
  have hcap : ¬ (((sc.band buf).1.getD (-1)).toNat < bandsCapacity) := by
    unfold bandsCapacity
    omega
  rw [if_pos hg, if_neg hcap]

/-- C7 amended: for `bandcount ≤ 2048` (the capacity of `bands`) and every line
beginning with `band[` whose scan yields `(index, value)` (each -1 when the scan
misses it): if `0 ≤ index < bandcount` and `value ≥ 0` then `bands[index]` becomes
`value`, every other band entry, `bandcount`, `master_gain` and `lpf_gain` are
unchanged and `audio_eq_save` is called once on the new state; otherwise the state
is unchanged and no save happens; no response is written in either case. -/
theorem control_band_guard (sc : Scanf) (fp : Option Nat) (s : EqState) (buf : String)
    (h : startsWith buf "band[" = true) (hb : s.bandcount ≤ 2048) :
    ((0 ≤ (sc.band buf).1.getD (-1) ∧ (sc.band buf).1.getD (-1) < (s.bandcount : Int) ∧
        0 ≤ (sc.band buf).2.getD (-1)) →
      ∃ r, audio_eq_control_line sc fp s buf = some r ∧
        r.state.bands ((sc.band buf).1.getD (-1)).toNat = (sc.band buf).2.getD (-1) ∧
        (∀ i, i ≠ ((sc.band buf).1.getD (-1)).toNat → r.state.bands i = s.bands i) ∧
        r.state.bandcount = s.bandcount ∧
        r.state.master_gain = s.master_gain ∧
        r.state.lpf_gain = s.lpf_gain ∧
        r.saves = [audio_eq_save fp r.state] ∧
        r.responses = []) ∧
    (¬ (0 ≤ (sc.band buf).1.getD (-1) ∧ (sc.band buf).1.getD (-1) < (s.bandcount : Int) ∧
        0 ≤ (sc.band buf).2.getD (-1)) →
      ∃ r, audio_eq_control_line sc fp s buf = some r ∧
        r.state = s ∧ r.saves = [] ∧ r.responses = []) := by
  rw [audio_eq_control_band sc fp s buf h _ _ rfl rfl, toInt32_of_lt _ (by omega)]
  constructor
  · intro hc
    have hc2 : (sc.band buf).1.getD (-1) ≥ 0 ∧ (sc.band buf).1.getD (-1) < (s.bandcount : Int) ∧
        (sc.band buf).2.getD (-1) ≥ 0 := hc
    have hcap : ((sc.band buf).1.getD (-1)).toNat < bandsCapacity := by
      unfold bandsCapacity
      omega
    rw [if_pos hc2, if_pos hcap]
    refine ⟨_, rfl, ?_, ?_, rfl, rfl, rfl, rfl, rfl⟩
    · exact Function.update_same _ _ _
    · intro i hi
      exact Function.update_noteq hi _ _
  · intro hc
    have hc2 : ¬ ((sc.band buf).1.getD (-1) ≥ 0 ∧
        (sc.band buf).1.getD (-1) < (s.bandcount : Int) ∧ (sc.band buf).2.getD (-1) ≥ 0) := hc
    rw [if_neg hc2]
    exact ⟨_, rfl, rfl, rfl, rfl⟩

/-- Witness of `control_band_guard` in a state with `bandcount = 1024` and unit
gains: the line `band[0]=1.5` stores 3/2 into `bands[0]`, keeps `bands[1] = 1`,
saves once and writes no response; the line `band[5000]=1` (index not below
`bandcount`) changes nothing and does not save. -/
theorem control_band_guard_witness :
    (startsWith "band[0]=1.5" "band[" = true ∧ startsWith "band[5000]=1" "band[" = true ∧
      (sampleState 1).bandcount ≤ 2048) ∧
    (∃ r, audio_eq_control_line sampleScanf none (sampleState 1) "band[0]=1.5" = some r ∧
      r.state.bands 0 = 3 / 2 ∧ r.state.bands 1 = 1 ∧ r.saves.length = 1 ∧
      r.responses = []) ∧
    (∃ r, audio_eq_control_line sampleScanf none (sampleState 1) "band[5000]=1" = some r ∧
      r.state = sampleState 1 ∧ r.saves = [] ∧ r.responses = []) := by
  have hstart : startsWith "band[0]=1.5" "band[" = true := by decide
  have hstart2 : startsWith "band[5000]=1" "band[" = true := by decide
  have hcount : (sampleState 1).bandcount ≤ 2048 := by decide
  have hid : (sampleScanf.band "band[0]=1.5").1.getD (-1) = 0 := by simp [sampleScanf]
  have hval : (sampleScanf.band "band[0]=1.5").2.getD (-1) = 3 / 2 := by simp [sampleScanf]
  have hid2 : (sampleScanf.band "band[5000]=1").1.getD (-1) = 5000 := by simp [sampleScanf]
  have hguard : 0 ≤ (sampleScanf.band "band[0]=1.5").1.getD (-1) ∧
      (sampleScanf.band "band[0]=1.5").1.getD (-1) < ((sampleState 1).bandcount : Int) ∧
      0 ≤ (sampleScanf.band "band[0]=1.5").2.getD (-1) := by
    rw [hid, hval]
    norm_num [sampleState]
  have hguard2 : ¬ (0 ≤ (sampleScanf.band "band[5000]=1").1.getD (-1) ∧
      (sampleScanf.band "band[5000]=1").1.getD (-1) < ((sampleState 1).bandcount : Int) ∧
      0 ≤ (sampleScanf.band "band[5000]=1").2.getD (-1)) := by
    rw [hid2]
    norm_num [sampleState]
  obtain ⟨r, hr, h1, h2, _, _, _, h6, h7⟩ :=
    (control_band_guard sampleScanf none (sampleState 1) "band[0]=1.5" hstart hcount).1 hguard
  rw [hid, hval] at h1
  rw [hid] at h2
  refine ⟨⟨hstart, hstart2, hcount⟩, ⟨r, hr, h1, ?_, ?_, h7⟩,
    (control_band_guard sampleScanf none (sampleState 1) "band[5000]=1" hstart2 hcount).2 hguard2⟩
  · rw [h2 1 (by decide)]
    rfl
  · rw [h6]
    rfl

/-! ## Persistence -/

/-- The loading loop started at index `j` leaves every entry below `j` alone. -/
theorem loadLine_keep (sc : Scanf) (t : List String) :
    ∀ (st : EqState) (j i : Nat), i < j →
      (t.foldl (loadLine sc) (st, j)).1.bands i = st.bands i := by
  induction t with
  | nil => intro st j i _; rfl
  | cons y ys ih =>
    intro st j i hj
    have hpair : loadLine sc (st, j) y = ((loadLine sc (st, j) y).1, j + 1) := rfl
    rw [List.foldl_cons, hpair, ih _ (j + 1) i (by omega)]
    unfold loadLine
    cases sc.float y with
    | none => rfl
    | some w => exact Function.update_noteq (by omega) _ _

/-- The loading loop stores the gain of the line at position `i` of the rest of
the file into `bands[i0 + i]`, whatever `bandcount` is: when every line scans to
`v`, every entry `i0 ≤ i < i0 + length` holds `v` afterwards, and `bandcount` is
not consulted or changed. -/
theorem loadLine_foldl (sc : Scanf) (v : ℚ) (rest : List String)
    (hv : ∀ l, l ∈ rest → sc.float l = some v) :
    ∀ (s : EqState) (i0 : Nat),
      (rest.foldl (loadLine sc) (s, i0)).1.bandcount = s.bandcount ∧
      ∀ i, i0 ≤ i → i < i0 + rest.length →
        (rest.foldl (loadLine sc) (s, i0)).1.bands i = v := by
  induction rest with
  | nil =>
    intro s i0
    exact ⟨rfl, fun i h1 h2 => absurd h2 (by simp; omega)⟩
  | cons x xs ih =>
    intro s i0
    have hx : sc.float x = some v := hv x (List.mem_cons_self x xs)
    have hxs : ∀ l, l ∈ xs → sc.float l = some v := fun l hl => hv l (List.mem_cons_of_mem x hl)
    have hstep : loadLine sc (s, i0) x
        = ({ s with bands := Function.update s.bands i0 v }, i0 + 1) := by
      unfold loadLine
      rw [hx]
    rw [List.foldl_cons, hstep]
    obtain ⟨ihc, ihb⟩ := ih hxs { s with bands := Function.update s.bands i0 v } (i0 + 1)
    refine ⟨ihc, ?_⟩
    intro i h1 h2
    rw [List.length_cons] at h2
    by_cases hi : i = i0
    · subst hi
      rw [loadLine_keep sc xs _ (i + 1) i (Nat.lt_succ_self i)]
      exact Function.update_same _ _ _
    · exact ihb i (by omega) (by omega)

/-- Loading a file whose only line is `-1` stores `4294967295` into the
`uint32_t` variable `bandcount`. -/
theorem load_negative_count :
    (audio_eq_load sampleScanf (some ["-1"]) (sampleState 1)).bandcount = 4294967295 := by
  have h1 : sampleScanf.int "-1" = some (-1) := by decide
  unfold audio_eq_load
  simp only [h1]
  rfl

/-- C8 (bounded load) is not met by `audio_eq_load`: (1) a file with first line
`1` and two gain lines `0.5` leaves `bandcount = 1` and stores 1/2 into `bands[1]`,
an index not below `bandcount`; (2) a file with first line `4096` leaves
`bandcount = 4096 > 2048`; (3) a first line followed by 2049 gain lines stores
into `bands[2048]`, past the 2048 entries of the array. -/
theorem load_ignores_bounds :
    ((audio_eq_load sampleScanf (some ["1", "0.5", "0.5"]) (sampleState 1)).bandcount = 1 ∧
      (audio_eq_load sampleScanf (some ["1", "0.5", "0.5"]) (sampleState 1)).bands 1 = 1 / 2 ∧
      (sampleState 1).bands 1 = 1) ∧
    (audio_eq_load sampleScanf (some ["4096"]) (sampleState 1)).bandcount = 4096 ∧
    (audio_eq_load sampleScanf (some ("1" :: List.replicate 2049 "0.5"))
      (sampleState 1)).bands 2048 = 1 / 2 := by
  have hscan : ∀ n l, l ∈ List.replicate n "0.5" → sampleScanf.float l = some (1 / 2) := by
    intro n l hl
    rw [List.eq_of_mem_replicate hl]
    rfl
  have h1 : sampleScanf.int "1" = some 1 := by decide
  have h4 : sampleScanf.int "4096" = some 4096 := by decide
  have hl2 : ["0.5", "0.5"] = List.replicate 2 "0.5" := rfl
  refine ⟨⟨?_, ?_, rfl⟩, ?_, ?_⟩
  · unfold audio_eq_load
    simp only [h1]
    rw [hl2, (loadLine_foldl sampleScanf (1 / 2) _ (hscan 2) _ 0).1]
    rfl
  · unfold audio_eq_load
    simp only [h1]
    rw [hl2]
    exact (loadLine_foldl sampleScanf (1 / 2) _ (hscan 2) _ 0).2 1 (by decide) (by decide)
  · unfold audio_eq_load
    simp only [h4]
    rfl
  · unfold audio_eq_load
    simp only [h1]
    exact (loadLine_foldl sampleScanf (1 / 2) _ (hscan 2049) _ 0).2 2048 (by decide)
      (by rw [List.length_replicate]; decide)

/-- C9 (a failed open aborts the save) is not met by `audio_eq_save`: when
`fopen` fails (`fp` null) it logs and then still calls `fprintf` with the null
handle for the count and for each of the `bandcount` gains, and `fclose` on it.
When `fopen` succeeds it prints `bandcount`, then exactly `bandcount` gains, then
closes. -/
theorem save_open_failure_not_guarded (s : EqState) (fd : Nat) :
    audio_eq_save none s
      = FileOp.logError :: FileOp.printCount none s.bandcount ::
          ((List.range s.bandcount).map (fun i => FileOp.printGain none (s.bands i)) ++
            [FileOp.close none]) ∧
    audio_eq_save (some fd) s
      = FileOp.printCount (some fd) s.bandcount ::
          ((List.range s.bandcount).map (fun i => FileOp.printGain (some fd) (s.bands i)) ++
            [FileOp.close (some fd)]) ∧
    ((List.range s.bandcount).map (fun i => FileOp.printGain (some fd) (s.bands i))).length
      = s.bandcount := by
  refine ⟨rfl, rfl, ?_⟩
  rw [List.length_map, List.length_range]

/-! ## Facade state machine -/

/-- A call that starts with `ready == 0` calls `audio_eq_init`, stores its result 1
into `ready` whatever `pthread_create` returned, and continues as a call from the
state with `ready = 1`. -/
theorem audio_eq_process_init (T : Transform) (p : Int) (heap : Frame) (s : EqState)
    (buf16 : Pcm) (n sz nb : Nat) (h0 : s.ready = 0) :
    audio_eq_process T p heap s buf16 n sz nb
      = (audio_eq_process T p heap { s with ready := 1 } buf16 n sz nb).map
          (fun r => { r with initCalled := true }) := by
  unfold audio_eq_process
  simp only [h0, if_true, audio_eq_init, decide_True]
  have h1 : ¬ ((1 : Int) ≤ 0) := by decide
  have h2 : ¬ ((1 : Int) = 0) := by decide
  simp only [h1, h2, if_false]
  cases (List.range nb).foldlM (processChannel T n (n * 8))
      (fillWindows { s with ready := 1 } buf16 n nb, heap, true) with
  | none => rfl
  | some q => rfl

/-- `audio_eq_init` runs exactly on the calls that start with `ready == 0`. -/
theorem init_called_iff (T : Transform) (p : Int) (heap : Frame) (s : EqState)
    (buf16 : Pcm) (n sz nb : Nat) (r : ProcResult)
    (h : audio_eq_process T p heap s buf16 n sz nb = some r) :
    r.initCalled = true ↔ s.ready = 0 := by
  unfold audio_eq_process at h
  simp only [] at h
  split_ifs at h with h1 h2 h3
  · cases h; simp [h1]
  · split at h
    · cases h
    · cases h; simp [h1]
  · cases h; simp [h1]
  · split at h
    · cases h
    · cases h; simp [h1]

/-- Ready is absorbing: from `ready > 0` a two-channel call runs the spectral
path, does not call `audio_eq_init`, and leaves `ready` as it was. -/
theorem ready_absorbing (T : Transform) (p : Int) (heap : Frame) (s : EqState)
    (buf16 : Pcm) (n sz : Nat) (hr : 0 < s.ready) :
    ∃ r, audio_eq_process T p heap s buf16 n sz 2 = some r ∧ r.initCalled = false ∧
      r.path = Path.spectral ∧ r.state.ready = s.ready := by
  obtain ⟨s2, hproc, hrd, _⟩ := audio_eq_process_spectral T p heap s buf16 n sz hr
  exact ⟨_, hproc, rfl, rfl, hrd⟩

/-- C10 (a failed attempt stays Uninitialized and falls back) is not met by the
code: when the first call (`ready == 0`) runs and `pthread_create` fails (non-zero
return), `audio_eq_init` still returns 1, so the call sets `ready = 1`, runs the
spectral path instead of the fallback, and every later two-channel call runs the
spectral path without calling `audio_eq_init` again. -/
theorem init_failure_enters_ready (T : Transform) (p : Int) (heap : Frame) (s : EqState)
    (buf16 : Pcm) (n sz : Nat) (h0 : s.ready = 0) (_hp : p ≠ 0) :
    ∃ r, audio_eq_process T p heap s buf16 n sz 2 = some r ∧ r.initCalled = true ∧
      r.path = Path.spectral ∧ r.state.ready = 1 ∧
      ∀ (p2 : Int) (heap2 : Frame) (buf2 : Pcm) (n2 sz2 : Nat),
        ∃ r2, audio_eq_process T p2 heap2 r.state buf2 n2 sz2 2 = some r2 ∧
          r2.initCalled = false ∧ r2.path = Path.spectral ∧ r2.state.ready = 1 := by
  have hr : 0 < ({ s with ready := 1 } : EqState).ready := Int.one_pos
  obtain ⟨r, hproc, hi, hpath, hrd⟩ :=
    ready_absorbing T p heap { s with ready := 1 } buf16 n sz hr
  refine ⟨{ r with initCalled := true }, ?_, rfl, hpath, hrd, ?_⟩
  · rw [audio_eq_process_init T p heap s buf16 n sz 2 h0, hproc]
    rfl
  · intro p2 heap2 buf2 n2 sz2
    have hr2 : 0 < r.state.ready := by rw [hrd]; exact Int.one_pos
    obtain ⟨r2, hproc2, hi2, hpath2, hrd2⟩ := ready_absorbing T p2 heap2 r.state buf2 n2 sz2 hr2
    exact ⟨r2, hproc2, hi2, hpath2, by rw [hrd2, hrd]⟩

/-- Witness of `init_failure_enters_ready`: a first call (`ready == 0`) with
`pthread_create` returning 11 (`EAGAIN`). -/
theorem init_failure_enters_ready_witness :
    ((sampleState 0).ready = 0 ∧ (11 : Int) ≠ 0) ∧
    ∃ r, audio_eq_process sampleTransform 11 (fun _ => (0, 0)) (sampleState 0) (fun _ => 0)
        1024 2 2 = some r ∧ r.initCalled = true ∧ r.path = Path.spectral ∧ r.state.ready = 1 ∧
      ∀ (p2 : Int) (heap2 : Frame) (buf2 : Pcm) (n2 sz2 : Nat),
        ∃ r2, audio_eq_process sampleTransform p2 heap2 r.state buf2 n2 sz2 2 = some r2 ∧
          r2.initCalled = false ∧ r2.path = Path.spectral ∧ r2.state.ready = 1 :=
  ⟨⟨by decide, by decide⟩,
    init_failure_enters_ready sampleTransform 11 (fun _ => (0, 0)) (sampleState 0) (fun _ => 0)
      1024 2 (by decide) (by decide)⟩

end AudioEq
